import Mathlib

/-!
Shallow embedding of the search engine of `src/client/src/db.ts` (repository
maxmellen/jitsuu).  The store is modelled as a list of rows of the SQLite
table `jitsu_entries`; the SQL query issued by `runQuery` is modelled by an
explicit filter / sort / truncate pipeline over that list, with SQLite's
`LIKE ... ESCAPE '\'` operator implemented as a recursive pattern matcher
over character lists and `ORDER BY type = 'word', keyword` as a sort by the
corresponding lexicographic key (SQLite's default BINARY collation on UTF-8
text coincides with codepoint-wise lexicographic comparison).
-/

namespace Jitsuu

/-- Mirrors the row type `EntryRow` of `db.ts` (`id` column is
`INTEGER PRIMARY KEY`; all other columns are text). -/
structure EntryRow where
  id : Nat
  keyword : String
  href : String
  type : String
  gaiji_img_src : String
  jion : String
  jikun : String
  jikei : String
deriving DecidableEq, Repr

/-- Mirrors `SearchResults` of `db.ts`: one group of rows per matching field. -/
structure SearchResults where
  keyword : List EntryRow
  jion : List EntryRow
  jikun : List EntryRow
deriving DecidableEq, Repr

/-- The code points removed by JavaScript `String.prototype.trim`
(WhiteSpace and LineTerminator productions of ECMA-262). -/
def isJsWhitespace (c : Char) : Bool :=
  decide ((0x0009 ≤ c.toNat ∧ c.toNat ≤ 0x000D) ∨ c.toNat = 0x0020 ∨ c.toNat = 0x00A0 ∨
    c.toNat = 0x1680 ∨ (0x2000 ≤ c.toNat ∧ c.toNat ≤ 0x200A) ∨ c.toNat = 0x2028 ∨
    c.toNat = 0x2029 ∨ c.toNat = 0x202F ∨ c.toNat = 0x205F ∨ c.toNat = 0x3000 ∨
    c.toNat = 0xFEFF)

/-- JavaScript `value.trim()`: drop leading and trailing whitespace. -/
def trimChars (s : List Char) : List Char :=
  ((s.dropWhile isJsWhitespace).reverse.dropWhile isJsWhitespace).reverse

/-- JavaScript `value.trim()` on a `String`. -/
def jsTrim (s : String) : String := ⟨trimChars s.data⟩

/-- One character step of `toKatakana` in `db.ts`:
`value.replace(/[ぁ-ゖ]/g, (char) => fromCharCode(char.charCodeAt(0) + 0x60))`. -/
def kataChar (c : Char) : Char :=
  if 0x3041 ≤ c.toNat ∧ c.toNat ≤ 0x3096 then Char.ofNat (c.toNat + 0x60) else c

/-- One character step of `toHiragana` in `db.ts`:
`value.replace(/[ァ-ヶ]/g, (char) => fromCharCode(char.charCodeAt(0) - 0x60))`. -/
def hiraChar (c : Char) : Char :=
  if 0x30A1 ≤ c.toNat ∧ c.toNat ≤ 0x30F6 then Char.ofNat (c.toNat - 0x60) else c

/-- `toKatakana` of `db.ts` (the regex ranges are single code units, so the
replacement is a per-character map). -/
def toKatakana (s : String) : String := ⟨s.data.map kataChar⟩

/-- `toHiragana` of `db.ts`. -/
def toHiragana (s : String) : String := ⟨s.data.map hiraChar⟩

/-- One character step of `escapeLike` of `db.ts`:
`value.replace(/[\\%_]/g, (match) => "\\" + match)`. -/
def escapeChar (c : Char) : List Char :=
  if c = '\\' || c = '%' || c = '_' then ['\\', c] else [c]

/-- `escapeLike` of `db.ts`, on character lists. -/
def escapeLike (s : List Char) : List Char := s.flatMap escapeChar

/-- JavaScript `Set` insertion-order iteration: deduplicate keeping the first
occurrence of each element.  (Auxiliary accumulator of already-seen values.) -/
def dedupAux {α : Type} [DecidableEq α] (seen : List α) : List α → List α
  | [] => []
  | a :: as => if a ∈ seen then dedupAux seen as else a :: dedupAux (a :: seen) as

/-- `Array.from(new Set(...))`: deduplicate keeping first occurrences. -/
def dedupKeepFirst {α : Type} [DecidableEq α] (l : List α) : List α := dedupAux [] l

/-- `buildQueryVariants` of `db.ts`: trim, short-circuit on the empty string,
then collect {trimmed, toHiragana trimmed, toKatakana trimmed} in insertion
order without duplicates, dropping empty strings. -/
def buildQueryVariants (value : String) : List String :=
  let trimmed := jsTrim value
  if trimmed = "" then []
  else
    (dedupKeepFirst [trimmed, toHiragana trimmed, toKatakana trimmed]).filter
      (fun item => item.length > 0)

/-- SQLite's default ASCII-only case folding used by the `LIKE` operator:
the uppercase letters U+0041–U+005A fold to their lowercase counterparts,
every other character (including all kana and ideographs) is unchanged.
Both the pattern character and the text character are folded before
comparison. -/
def likeFold (c : Char) : Char :=
  if 0x41 ≤ c.toNat ∧ c.toNat ≤ 0x5A then Char.ofNat (c.toNat + 0x20) else c

/-- ASCII case folding applied to a whole text. -/
def foldText (l : List Char) : List Char := l.map likeFold

/-- SQLite `LIKE` with `ESCAPE '\'` over character lists: `%` matches any run
of characters, `_` any single character, `\c` the literal character `c`, and
any other pattern character matches itself — with characters compared up to
SQLite's default ASCII case folding (`likeFold` on both sides, so
`'ABC' LIKE 'abc%'` holds). -/
def likeMatch : List Char → List Char → Bool
  | [], s => s.isEmpty
  | p :: ps, [] => if p = '%' then likeMatch ps [] else false
  | p :: ps, c :: s =>
    if p = '%' then ((c :: s).tails.any (fun t => likeMatch ps t))
    else if p = '_' then likeMatch ps s
    else if p = '\\' then
      match ps with
      | [] => false
      | pc :: tail => (likeFold c == likeFold pc) && likeMatch tail s
    else (likeFold c == likeFold p) && likeMatch ps s

/-- The three columns matched by `searchEntries` (`db.ts` line 56). -/
inductive SearchField where
  | keyword
  | jion
  | jikun
deriving DecidableEq, Repr

/-- Text of the matched column of a row. -/
def fieldText : SearchField → EntryRow → String
  | .keyword, e => e.keyword
  | .jion, e => e.jion
  | .jikun, e => e.jikun

/-- The two LIKE patterns added per variant in `runQuery`
(`likePatterns.add(escaped + "%")` and `likePatterns.add("%・" + escaped + "%")`). -/
def patternsForVariant (v : String) : List (List Char) :=
  [escapeLike v.data ++ ['%'], '%' :: '・' :: (escapeLike v.data ++ ['%'])]

/-- The deduplicated pattern list of `runQuery` (a JS `Set` filled in variant
order). -/
def likePatterns (variants : List String) : List (List Char) :=
  dedupKeepFirst (variants.flatMap patternsForVariant)

/-- The `WHERE (field LIKE ? OR ...)` disjunction of `runQuery`. -/
def rowMatches (variants : List String) (f : SearchField) (e : EntryRow) : Bool :=
  (likePatterns variants).any (fun p => likeMatch p (fieldText f e).data)

/-- SQLite `substr(jikei, 1, 2)` (the two-character truncation workaround
applied uniformly in `db.ts`). -/
def jikeiKey (e : EntryRow) : String := ⟨e.jikei.data.take 2⟩

/-- The `AND substr(jikei, 1, 2) IN (...)` clause of `runQuery`; absent when
the filter list is empty. -/
def passesFilter (filters : List String) (e : EntryRow) : Bool :=
  filters.isEmpty || decide (jikeiKey e ∈ filters)

/-- The first `ORDER BY` key, `type = 'word'` (0 for non-word rows, 1 for
word rows, ascending). -/
def wordRank (e : EntryRow) : Nat := if e.type = "word" then 1 else 0

/-- Codepoint-wise lexicographic `≤` on character lists: SQLite's BINARY
collation on UTF-8 text orders strings exactly this way. -/
def charListLe : List Char → List Char → Bool
  | [], _ => true
  | _ :: _, [] => false
  | a :: as, b :: bs =>
    if a.toNat < b.toNat then true
    else if b.toNat < a.toNat then false
    else charListLe as bs

/-- The full `ORDER BY type = 'word', keyword` comparison of `runQuery`. -/
def sqlLe (a b : EntryRow) : Bool :=
  decide (wordRank a < wordRank b) ||
    (decide (wordRank a = wordRank b) && charListLe a.keyword.data b.keyword.data)

/-- Insertion step of the sort modelling `ORDER BY`. -/
def insertSorted (a : EntryRow) : List EntryRow → List EntryRow
  | [] => [a]
  | b :: bs => if sqlLe a b then a :: b :: bs else b :: insertSorted a bs

/-- Stable sort by `sqlLe`, modelling the `ORDER BY` clause of `runQuery`. -/
def sortRows : List EntryRow → List EntryRow
  | [] => []
  | a :: as => insertSorted a (sortRows as)

/-- `runQuery` of `db.ts`: `SELECT ... WHERE (likeClauses) [AND substr(jikei,1,2)
IN (...)] ORDER BY type = 'word', keyword LIMIT limit` over the store. -/
def runQuery (db : List EntryRow) (f : SearchField) (variants : List String)
    (filters : List String) (limit : Nat) : List EntryRow :=
  (sortRows (db.filter (fun e => rowMatches variants f e && passesFilter filters e))).take limit

/-- The per-field loop body of `searchEntries` (`db.ts` lines 62-68): skip rows
whose id is already in the `seen` set, record new ids, keep the rest in order.
Returns the grown seen set together with the group's rows. -/
def dedupPass (seen : List Nat) : List EntryRow → List Nat × List EntryRow
  | [] => (seen, [])
  | r :: rs =>
    if r.id ∈ seen then dedupPass seen rs
    else
      let p := dedupPass (r.id :: seen) rs
      (p.1, r :: p.2)

/-- `searchEntries` of `db.ts`: build the variant set, short-circuit when it is
empty, then run `runQuery` for `keyword`, `jion`, `jikun` in order with a
shared seen-id set and a per-field limit of 200. -/
def searchEntries (db : List EntryRow) (query : String) (filters : List String) :
    SearchResults :=
  let variants := buildQueryVariants query
  if variants.isEmpty then ⟨[], [], []⟩
  else
    let p1 := dedupPass [] (runQuery db .keyword variants filters 200)
    let p2 := dedupPass p1.1 (runQuery db .jion variants filters 200)
    let p3 := dedupPass p2.1 (runQuery db .jikun variants filters 200)
    ⟨p1.2, p2.2, p3.2⟩

/-- The order `ORDER BY type = 'word', keyword` guarantees inside one result
group: a `'word'` row never precedes a non-`'word'` row, and rows of the same
class are in ascending keyword order (codepoint-wise, SQLite BINARY). -/
def groupOrder (a b : EntryRow) : Prop :=
  (a.type = "word" → b.type = "word") ∧
    ((a.type = "word" ↔ b.type = "word") → charListLe a.keyword.data b.keyword.data = true)

/-- A string containing no katakana code point of the conversion range
U+30A1–U+30F6 used by `toHiragana`/`toKatakana`. -/
def katakanaFree (s : String) : Prop :=
  ∀ c ∈ s.data, ¬(0x30A1 ≤ c.toNat ∧ c.toNat ≤ 0x30F6)

instance (s : String) : Decidable (katakanaFree s) := by
  unfold katakanaFree
  infer_instance

/-! ### Properties of the per-field deduplication loop of `searchEntries` -/

theorem dedupPass_sublist (seen : List Nat) (l : List EntryRow) :
    (dedupPass seen l).2.Sublist l := by
  induction l generalizing seen with
  | nil => simp [dedupPass]
  | cons r rs ih =>
    simp only [dedupPass]
    split
    · exact (ih seen).cons r
    · exact (ih (r.id :: seen)).cons₂ r

theorem dedupPass_id_notMem_seen {seen : List Nat} {l : List EntryRow} {r : EntryRow}
    (h : r ∈ (dedupPass seen l).2) : r.id ∉ seen := by
  induction l generalizing seen with
  | nil => simp [dedupPass] at h
  | cons r0 rs ih =>
    simp only [dedupPass] at h
    split at h
    · exact ih h
    · next hn =>
      rcases List.mem_cons.mp h with rfl | h'
      · exact hn
      · intro hs
        exact ih h' (List.mem_cons_of_mem _ hs)

theorem dedupPass_seen_grows {seen : List Nat} {l : List EntryRow} {i : Nat}
    (h : i ∈ seen) : i ∈ (dedupPass seen l).1 := by
  induction l generalizing seen with
  | nil => simpa [dedupPass] using h
  | cons r0 rs ih =>
    simp only [dedupPass]
    split
    · exact ih h
    · exact ih (List.mem_cons_of_mem _ h)

theorem dedupPass_id_mem_fst {seen : List Nat} {l : List EntryRow} {r : EntryRow}
    (h : r ∈ (dedupPass seen l).2) : r.id ∈ (dedupPass seen l).1 := by
  induction l generalizing seen with
  | nil => simp [dedupPass] at h
  | cons r0 rs ih =>
    simp only [dedupPass] at h ⊢
    split <;> rename_i hn
    · exact ih (by simpa [dedupPass, hn] using h)
    · rcases List.mem_cons.mp (by simpa [dedupPass, hn] using h) with rfl | h'
      · exact dedupPass_seen_grows (List.mem_cons_self _ _)
      · exact ih h'

theorem dedupPass_nodup_ids (seen : List Nat) (l : List EntryRow) :
    ((dedupPass seen l).2.map (fun r => r.id)).Nodup := by
  induction l generalizing seen with
  | nil => simp [dedupPass]
  | cons r0 rs ih =>
    simp only [dedupPass]
    split
    · exact ih seen
    · refine List.nodup_cons.mpr ⟨?_, ih (r0.id :: seen)⟩
      intro hmem
      rcases List.mem_map.mp hmem with ⟨x, hx, hxid⟩
      exact dedupPass_id_notMem_seen hx (hxid ▸ List.mem_cons_self _ _)

/-- C2: in every search result, no entry id appears in more than one of the
three groups, and no entry id appears more than once within a single group. -/
theorem C2_dedup_invariant (db : List EntryRow) (query : String) (filters : List String) :
    ((searchEntries db query filters).keyword.map (fun r => r.id)).Nodup ∧
    ((searchEntries db query filters).jion.map (fun r => r.id)).Nodup ∧
    ((searchEntries db query filters).jikun.map (fun r => r.id)).Nodup ∧
    List.Disjoint ((searchEntries db query filters).keyword.map (fun r => r.id))
      ((searchEntries db query filters).jion.map (fun r => r.id)) ∧
    List.Disjoint ((searchEntries db query filters).keyword.map (fun r => r.id))
      ((searchEntries db query filters).jikun.map (fun r => r.id)) ∧
    List.Disjoint ((searchEntries db query filters).jion.map (fun r => r.id))
      ((searchEntries db query filters).jikun.map (fun r => r.id)) := by
  simp only [searchEntries]
  split
  · simp [List.Disjoint]
  · dsimp only
    refine ⟨dedupPass_nodup_ids _ _, dedupPass_nodup_ids _ _, dedupPass_nodup_ids _ _,
      ?_, ?_, ?_⟩
    · intro i h1 h2
      rcases List.mem_map.mp h1 with ⟨x, hx, rfl⟩
      rcases List.mem_map.mp h2 with ⟨y, hy, hyx⟩
      exact dedupPass_id_notMem_seen hy (hyx ▸ dedupPass_id_mem_fst hx)
    · intro i h1 h2
      rcases List.mem_map.mp h1 with ⟨x, hx, rfl⟩
      rcases List.mem_map.mp h2 with ⟨y, hy, hyx⟩
      exact dedupPass_id_notMem_seen hy
        (hyx ▸ dedupPass_seen_grows (dedupPass_id_mem_fst hx))
    · intro i h1 h2
      rcases List.mem_map.mp h1 with ⟨x, hx, rfl⟩
      rcases List.mem_map.mp h2 with ⟨y, hy, hyx⟩
      exact dedupPass_id_notMem_seen hy (hyx ▸ dedupPass_id_mem_fst hx)

/-! ### Properties of the `ORDER BY type = 'word', keyword LIMIT n` pipeline -/

theorem charListLe_cons {a b : Char} {as bs : List Char} :
    charListLe (a :: as) (b :: bs) =
      (if a.toNat < b.toNat then true else if b.toNat < a.toNat then false
        else charListLe as bs) := rfl

theorem charListLe_total (x : List Char) :
    ∀ y, charListLe x y = true ∨ charListLe y x = true := by
  induction x with
  | nil => intro y; left; simp [charListLe]
  | cons a as ih =>
    intro y
    cases y with
    | nil => right; simp [charListLe]
    | cons b bs =>
      rw [charListLe_cons, charListLe_cons]
      rcases Nat.lt_trichotomy a.toNat b.toNat with h | h | h
      · left; simp [h]
      · rcases ih bs with h2 | h2
        · left; simp [h, h2]
        · right; simp [h, h2]
      · right; simp [h]

theorem charListLe_trans {x : List Char} :
    ∀ {y z}, charListLe x y = true → charListLe y z = true → charListLe x z = true := by
  induction x with
  | nil => intro y z _ _; simp [charListLe]
  | cons a as ih =>
    intro y z hxy hyz
    cases y with
    | nil => simp [charListLe] at hxy
    | cons b bs =>
      cases z with
      | nil => simp [charListLe] at hyz
      | cons c cs =>
        rw [charListLe_cons] at hxy hyz ⊢
        split_ifs at hxy hyz ⊢ <;>
          first
            | rfl
            | exact ih hxy hyz
            | omega

theorem sqlLe_total (a b : EntryRow) : sqlLe a b = true ∨ sqlLe b a = true := by
  simp only [sqlLe, Bool.or_eq_true, decide_eq_true_eq, Bool.and_eq_true]
  rcases Nat.lt_trichotomy (wordRank a) (wordRank b) with h | h | h
  · exact Or.inl (Or.inl h)
  · rcases charListLe_total a.keyword.data b.keyword.data with h2 | h2
    · exact Or.inl (Or.inr ⟨h, h2⟩)
    · exact Or.inr (Or.inr ⟨h.symm, h2⟩)
  · exact Or.inr (Or.inl h)

theorem sqlLe_trans {a b c : EntryRow} (h1 : sqlLe a b = true) (h2 : sqlLe b c = true) :
    sqlLe a c = true := by
  simp only [sqlLe, Bool.or_eq_true, decide_eq_true_eq, Bool.and_eq_true] at h1 h2 ⊢
  rcases h1 with h1 | ⟨h1e, h1l⟩ <;> rcases h2 with h2 | ⟨h2e, h2l⟩
  · left; omega
  · left; omega
  · left; omega
  · exact Or.inr ⟨by omega, charListLe_trans h1l h2l⟩

theorem mem_insertSorted {a x : EntryRow} :
    ∀ {l}, x ∈ insertSorted a l ↔ x = a ∨ x ∈ l := by
  intro l
  induction l with
  | nil => simp [insertSorted]
  | cons b bs ih =>
    simp only [insertSorted]
    split
    · simp only [List.mem_cons]
    · simp only [List.mem_cons, ih]; tauto

theorem pairwise_insertSorted {a : EntryRow} {l : List EntryRow}
    (h : l.Pairwise (fun x y => sqlLe x y = true)) :
    (insertSorted a l).Pairwise (fun x y => sqlLe x y = true) := by
  induction l with
  | nil => simp [insertSorted]
  | cons b bs ih =>
    rcases List.pairwise_cons.mp h with ⟨hb, hbs⟩
    simp only [insertSorted]
    split
    · next hab =>
      refine List.pairwise_cons.mpr ⟨?_, h⟩
      intro y hy
      rcases List.mem_cons.mp hy with rfl | hy'
      · exact hab
      · exact sqlLe_trans hab (hb _ hy')
    · next hab =>
      have hba : sqlLe b a = true := by
        rcases sqlLe_total a b with h' | h'
        · exact absurd h' hab
        · exact h'
      refine List.pairwise_cons.mpr ⟨?_, ih hbs⟩
      intro y hy
      rcases mem_insertSorted.mp hy with rfl | hy'
      · exact hba
      · exact hb _ hy'

theorem pairwise_sortRows (l : List EntryRow) :
    (sortRows l).Pairwise (fun x y => sqlLe x y = true) := by
  induction l with
  | nil => simp [sortRows]
  | cons a as ih => exact pairwise_insertSorted ih

theorem runQuery_pairwise (db : List EntryRow) (f : SearchField) (variants filters : List String)
    (limit : Nat) :
    (runQuery db f variants filters limit).Pairwise (fun x y => sqlLe x y = true) :=
  List.Pairwise.sublist (List.take_sublist _ _) (pairwise_sortRows _)

theorem runQuery_length_le (db : List EntryRow) (f : SearchField) (variants filters : List String)
    (limit : Nat) : (runQuery db f variants filters limit).length ≤ limit :=
  List.length_take_le _ _

theorem groupOrder_of_sqlLe {a b : EntryRow} (h : sqlLe a b = true) : groupOrder a b := by
  simp only [sqlLe, Bool.or_eq_true, decide_eq_true_eq, Bool.and_eq_true] at h
  constructor
  · intro ha
    by_contra hb
    have h1 : wordRank a = 1 := by simp [wordRank, ha]
    have h2 : wordRank b = 0 := by simp [wordRank, hb]
    rcases h with h | ⟨he, _⟩ <;> omega
  · intro hiff
    have heq : wordRank a = wordRank b := by
      by_cases ha : a.type = "word"
      · simp [wordRank, ha, hiff.mp ha]
      · have hb : ¬b.type = "word" := fun hb => ha (hiff.mpr hb)
        simp [wordRank, ha, hb]
    rcases h with h | ⟨_, hl⟩
    · omega
    · exact hl

/-- C10: within each returned group, non-`'word'` rows precede `'word'` rows,
rows of the same class are in ascending keyword order, and each group holds at
most 200 rows. -/
theorem C10_group_order (db : List EntryRow) (query : String) (filters : List String) :
    ((searchEntries db query filters).keyword.Pairwise groupOrder ∧
      (searchEntries db query filters).keyword.length ≤ 200) ∧
    ((searchEntries db query filters).jion.Pairwise groupOrder ∧
      (searchEntries db query filters).jion.length ≤ 200) ∧
    ((searchEntries db query filters).jikun.Pairwise groupOrder ∧
      (searchEntries db query filters).jikun.length ≤ 200) := by
  simp only [searchEntries]
  split
  · simp
  · dsimp only
    refine ⟨⟨?_, ?_⟩, ⟨?_, ?_⟩, ⟨?_, ?_⟩⟩ <;>
      first
        | exact List.Pairwise.imp (fun h => groupOrder_of_sqlLe h)
            (List.Pairwise.sublist (dedupPass_sublist _ _) (runQuery_pairwise _ _ _ _ _))
        | exact le_trans (List.Sublist.length_le (dedupPass_sublist _ _))
            (runQuery_length_le _ _ _ _ _)

/-! ### Characterization of the LIKE patterns built by `runQuery` -/

theorem likeMatch_pct_eval (p : List Char) (s : List Char) :
    likeMatch ('%' :: p) s = s.tails.any (fun t => likeMatch p t) := by
  cases s with
  | nil => simp [likeMatch]
  | cons c s' => cases p <;> simp [likeMatch]

theorem likeMatch_pct_cons_iff (p : List Char) (s : List Char) :
    likeMatch ('%' :: p) s = true ↔ ∃ t, t <:+ s ∧ likeMatch p t = true := by
  rw [likeMatch_pct_eval, List.any_eq_true]
  constructor
  · rintro ⟨t, ht, hm⟩
    exact ⟨t, (List.mem_tails t s).mp ht, hm⟩
  · rintro ⟨t, ht, hm⟩
    exact ⟨t, (List.mem_tails t s).mpr ht, hm⟩

theorem likeMatch_pct (s : List Char) : likeMatch ['%'] s = true :=
  (likeMatch_pct_cons_iff [] s).mpr ⟨[], List.nil_suffix, rfl⟩

theorem likeMatch_lit_eval_nil {p : Char} (hp1 : p ≠ '%') (ps : List Char) :
    likeMatch (p :: ps) [] = false := by
  simp [likeMatch, hp1]

theorem likeMatch_lit_eval_cons {p : Char} (hp1 : p ≠ '%') (hp2 : p ≠ '_') (hp3 : p ≠ '\\')
    (ps : List Char) (c : Char) (s' : List Char) :
    likeMatch (p :: ps) (c :: s') = ((likeFold c == likeFold p) && likeMatch ps s') := by
  cases ps <;> simp [likeMatch, hp1, hp2, hp3]

theorem likeMatch_escape_eval_cons (pc : Char) (rest : List Char) (c : Char) (s' : List Char) :
    likeMatch ('\\' :: pc :: rest) (c :: s') =
      ((likeFold c == likeFold pc) && likeMatch rest s') := by
  simp [likeMatch]

theorem likeMatch_escape_prefix_iff (v : List Char) :
    ∀ s, (likeMatch (escapeLike v ++ ['%']) s = true ↔ foldText v <+: foldText s) := by
  induction v with
  | nil =>
    intro s
    simp only [escapeLike, List.flatMap_nil, List.nil_append, foldText, List.map_nil]
    exact ⟨fun _ => List.nil_prefix, fun _ => likeMatch_pct s⟩
  | cons c v ih =>
    intro s
    have hesc : escapeLike (c :: v) ++ ['%'] = escapeChar c ++ (escapeLike v ++ ['%']) := by
      simp [escapeLike]
    rw [hesc]
    by_cases hc : c = '\\' ∨ c = '%' ∨ c = '_'
    · have he : escapeChar c ++ (escapeLike v ++ ['%']) =
          '\\' :: c :: (escapeLike v ++ ['%']) := by
        rcases hc with rfl | rfl | rfl <;> simp [escapeChar]
      rw [he]
      cases s with
      | nil =>
        rw [likeMatch_lit_eval_nil (by decide)]
        simp [foldText]
      | cons c' s' =>
        rw [likeMatch_escape_eval_cons, Bool.and_eq_true, beq_iff_eq, ih s']
        simp only [foldText, List.map_cons, List.cons_prefix_cons]
        constructor <;> rintro ⟨h, hv⟩ <;> exact ⟨h.symm, hv⟩
    · push_neg at hc
      have he : escapeChar c ++ (escapeLike v ++ ['%']) = c :: (escapeLike v ++ ['%']) := by
        simp [escapeChar, hc.1, hc.2.1, hc.2.2]
      rw [he]
      cases s with
      | nil =>
        rw [likeMatch_lit_eval_nil hc.2.1]
        simp [foldText]
      | cons c' s' =>
        rw [likeMatch_lit_eval_cons hc.2.1 hc.2.2 hc.1, Bool.and_eq_true, beq_iff_eq, ih s']
        simp only [foldText, List.map_cons, List.cons_prefix_cons]
        constructor <;> rintro ⟨h, hv⟩ <;> exact ⟨h.symm, hv⟩

theorem charInfixIff {α : Type} {l₁ l₂ : List α} :
    l₁ <:+: l₂ ↔ ∃ t, l₁ <+: t ∧ t <:+ l₂ := by
  constructor
  · rintro ⟨s, t, h⟩
    exact ⟨l₁ ++ t, ⟨t, rfl⟩, ⟨s, by rw [← List.append_assoc, h]⟩⟩
  · rintro ⟨t, ⟨r, hr⟩, ⟨s, hs⟩⟩
    exact ⟨s, r, by rw [List.append_assoc, hr, hs]⟩

theorem likeFold_delim : likeFold '・' = '・' := by decide

theorem foldText_suffix {t s : List Char} (h : t <:+ s) : foldText t <:+ foldText s := by
  rcases h with ⟨w, hw⟩
  exact ⟨foldText w, by simp only [foldText, ← List.map_append, hw]⟩

theorem exists_suffix_of_foldText_suffix {u s : List Char} (h : u <:+ foldText s) :
    ∃ t, t <:+ s ∧ u = foldText t := by
  induction s with
  | nil =>
    simp only [foldText, List.map_nil] at h
    rw [List.suffix_nil] at h
    exact ⟨[], List.suffix_rfl, by simp [foldText, h]⟩
  | cons a s' ih =>
    simp only [foldText, List.map_cons] at h
    rcases List.suffix_cons_iff.mp h with rfl | h'
    · exact ⟨a :: s', List.suffix_rfl, by simp [foldText]⟩
    · rcases ih h' with ⟨t, ht, rfl⟩
      exact ⟨t, ht.trans (List.suffix_cons a s'), rfl⟩

theorem likeMatch_delim_iff (v : List Char) (s : List Char) :
    likeMatch ('%' :: '・' :: (escapeLike v ++ ['%'])) s = true ↔
      ('・' :: foldText v) <:+: foldText s := by
  rw [likeMatch_pct_cons_iff]
  constructor
  · rintro ⟨t, hsuf, hm⟩
    refine charInfixIff.mpr ⟨foldText t, ?_, foldText_suffix hsuf⟩
    cases t with
    | nil =>
      rw [likeMatch_lit_eval_nil (by decide)] at hm
      simp at hm
    | cons c tail =>
      rw [likeMatch_lit_eval_cons (by decide) (by decide) (by decide), Bool.and_eq_true,
        beq_iff_eq, likeFold_delim] at hm
      simp only [foldText, List.map_cons]
      exact List.cons_prefix_cons.mpr ⟨hm.1.symm, (likeMatch_escape_prefix_iff v tail).mp hm.2⟩
  · intro hinf
    rcases charInfixIff.mp hinf with ⟨u, hpre, hsuf⟩
    rcases exists_suffix_of_foldText_suffix hsuf with ⟨t, ht, rfl⟩
    refine ⟨t, ht, ?_⟩
    cases t with
    | nil => simp [foldText] at hpre
    | cons c tail =>
      rw [show foldText (c :: tail) = likeFold c :: foldText tail from rfl] at hpre
      rcases List.cons_prefix_cons.mp hpre with ⟨hc, hv⟩
      rw [likeMatch_lit_eval_cons (by decide) (by decide) (by decide), Bool.and_eq_true,
        beq_iff_eq, likeFold_delim]
      exact ⟨hc.symm, (likeMatch_escape_prefix_iff v tail).mpr hv⟩

theorem mem_dedupAux {α : Type} [DecidableEq α] {x : α} :
    ∀ {seen : List α} {l : List α}, (x ∈ dedupAux seen l ↔ x ∈ l ∧ x ∉ seen) := by
  intro seen l
  induction l generalizing seen with
  | nil => simp [dedupAux]
  | cons a as ih =>
    simp only [dedupAux]
    split
    · next h =>
      rw [ih]
      constructor
      · rintro ⟨hm, hs⟩
        exact ⟨List.mem_cons_of_mem _ hm, hs⟩
      · rintro ⟨hm, hs⟩
        rcases List.mem_cons.mp hm with rfl | hm'
        · exact absurd h hs
        · exact ⟨hm', hs⟩
    · next h =>
      simp only [List.mem_cons, ih]
      constructor
      · rintro (rfl | ⟨hm, hs⟩)
        · exact ⟨Or.inl rfl, h⟩
        · exact ⟨Or.inr hm, fun hx => hs (Or.inr hx)⟩
      · rintro ⟨rfl | hm, hs⟩
        · exact Or.inl rfl
        · by_cases hxa : x = a
          · exact Or.inl hxa
          · exact Or.inr ⟨hm, fun hx => hx.elim hxa hs⟩

theorem mem_dedupKeepFirst {α : Type} [DecidableEq α] {x : α} {l : List α} :
    x ∈ dedupKeepFirst l ↔ x ∈ l := by
  simp [dedupKeepFirst, mem_dedupAux]

theorem rowMatches_iff (variants : List String) (f : SearchField) (e : EntryRow) :
    rowMatches variants f e = true ↔
      ∃ v ∈ variants,
        (foldText v.data <+: foldText (fieldText f e).data ∨
          ('・' :: foldText v.data) <:+: foldText (fieldText f e).data) := by
  simp only [rowMatches, likePatterns, List.any_eq_true]
  constructor
  · rintro ⟨p, hp, hm⟩
    rcases List.mem_flatMap.mp (mem_dedupKeepFirst.mp hp) with ⟨v, hv, hpv⟩
    simp only [patternsForVariant, List.mem_cons, List.not_mem_nil, or_false] at hpv
    rcases hpv with rfl | rfl
    · exact ⟨v, hv, Or.inl ((likeMatch_escape_prefix_iff v.data _).mp hm)⟩
    · exact ⟨v, hv, Or.inr ((likeMatch_delim_iff v.data _).mp hm)⟩
  · rintro ⟨v, hv, hpre | hinf⟩
    · refine ⟨escapeLike v.data ++ ['%'], ?_, (likeMatch_escape_prefix_iff v.data _).mpr hpre⟩
      exact mem_dedupKeepFirst.mpr
        (List.mem_flatMap.mpr ⟨v, hv, by simp [patternsForVariant]⟩)
    · refine ⟨'%' :: '・' :: (escapeLike v.data ++ ['%']), ?_,
        (likeMatch_delim_iff v.data _).mpr hinf⟩
      exact mem_dedupKeepFirst.mpr
        (List.mem_flatMap.mpr ⟨v, hv, by simp [patternsForVariant]⟩)

theorem ne_empty_of_mem_buildQueryVariants {q v : String}
    (h : v ∈ buildQueryVariants q) : v ≠ "" := by
  simp only [buildQueryVariants] at h
  split at h
  · simp at h
  · rcases List.mem_filter.mp h with ⟨-, hlen⟩
    intro hv
    subst hv
    simp [String.length] at hlen

/-- C5 is false as stated: SQLite `LIKE` is case-insensitive over ASCII, so
the entry with on-reading `ABC` is a candidate for the variant set of query
`abc` (`jion LIKE 'abc%'` holds in stock SQLite), although no variant is
literally a prefix of the field text or follows the delimiter `・` in it. -/
theorem C5_counterexample :
    ¬(rowMatches (buildQueryVariants "abc") .jion ⟨1, "", "", "", "", "ABC", "", ""⟩ = true ↔
        ∃ v ∈ buildQueryVariants "abc", v ≠ "" ∧
          (v.data <+: ("ABC" : String).data ∨
            ('・' :: v.data) <:+: ("ABC" : String).data)) := by
  decide

/-- C5 amended: for every query and entry, the entry is a candidate on the
on-reading (resp. kun-reading) field exactly when, for some non-empty variant
of the query, the field text starts with that variant or contains the
delimiter `・` immediately followed by that variant, with characters compared
up to SQLite's default ASCII case folding (A–Z identified with a–z, all other
characters exact). -/
theorem C5_amended_reading_candidates (q : String) (e : EntryRow) :
    (rowMatches (buildQueryVariants q) .jion e = true ↔
      ∃ v ∈ buildQueryVariants q, v ≠ "" ∧
        (foldText v.data <+: foldText e.jion.data ∨
          ('・' :: foldText v.data) <:+: foldText e.jion.data)) ∧
    (rowMatches (buildQueryVariants q) .jikun e = true ↔
      ∃ v ∈ buildQueryVariants q, v ≠ "" ∧
        (foldText v.data <+: foldText e.jikun.data ∨
          ('・' :: foldText v.data) <:+: foldText e.jikun.data)) := by
  constructor <;>
  · rw [rowMatches_iff]
    simp only [fieldText]
    constructor
    · rintro ⟨v, hv, hc⟩
      exact ⟨v, hv, ne_empty_of_mem_buildQueryVariants hv, hc⟩
    · rintro ⟨v, hv, -, hc⟩
      exact ⟨v, hv, hc⟩

/-- C4 as stated is false: the variant `か` of query `か` occurs as a substring
of the headword `あか`, yet the entry is not a headword-field candidate (the
LIKE patterns anchor headword matches at the start or after `・`, like the
reading fields). -/
theorem C4_counterexample :
    "か" ∈ buildQueryVariants "か" ∧
    ("か" : String).data <:+: ("あか" : String).data ∧
    rowMatches (buildQueryVariants "か") .keyword ⟨1, "あか", "", "", "", "", "", ""⟩ = false := by
  decide

/-- C4 amended: for every query and entry, the entry is a headword-field
candidate exactly when some variant of the query is a prefix of the headword
text or occurs immediately after the delimiter `・` in it — the same
segment-anchored rule as the reading fields, not substring containment
anywhere — with characters compared up to SQLite's default ASCII case
folding. -/
theorem C4_amended_headword_anchored (q : String) (e : EntryRow) :
    rowMatches (buildQueryVariants q) .keyword e = true ↔
      ∃ v ∈ buildQueryVariants q, v ≠ "" ∧
        (foldText v.data <+: foldText e.keyword.data ∨
          ('・' :: foldText v.data) <:+: foldText e.keyword.data) := by
  rw [rowMatches_iff]
  simp only [fieldText]
  constructor
  · rintro ⟨v, hv, hc⟩
    exact ⟨v, hv, ne_empty_of_mem_buildQueryVariants hv, hc⟩
  · rintro ⟨v, hv, -, hc⟩
    exact ⟨v, hv, hc⟩

/-! ### Membership facts about the query pipeline -/

theorem mem_sortRows {r : EntryRow} {l : List EntryRow} : r ∈ sortRows l ↔ r ∈ l := by
  induction l with
  | nil => simp [sortRows]
  | cons a as ih => simp [sortRows, mem_insertSorted, ih, List.mem_cons]

theorem runQuery_passesFilter {db : List EntryRow} {f : SearchField}
    {variants filters : List String} {limit : Nat} {r : EntryRow}
    (h : r ∈ runQuery db f variants filters limit) : passesFilter filters r = true := by
  simp only [runQuery] at h
  have h2 := mem_sortRows.mp (List.Sublist.mem h (List.take_sublist _ _))
  exact ((Bool.and_eq_true _ _).mp (List.mem_filter.mp h2).2).2

/-- C1 (behavior of the code at the failing input): with a store holding one
entry whose `jikei` begins with the selected filter label, an empty query and
a non-empty filter list produce three empty groups — `searchEntries`
short-circuits on the empty variant set before the filter is consulted,
instead of performing the filter-only headword scan the spec requires. -/
theorem C1_code_eval :
    jikeiKey ⟨1, "亜", "", "", "", "", "", "国字"⟩ ∈ (["国字"] : List String) ∧
    searchEntries [⟨1, "亜", "", "", "", "", "", "国字"⟩] "" ["国字"] =
      ⟨[], [], []⟩ := by decide

/-- C3 (behavior of the code at the failing input): for the spec's concrete
scenario A(jion `カン・ガン`), B(jion `アン・カン`) and query `かん`, the code
returns the on-reading group ordered `[B, A]` (by `ORDER BY type='word',
keyword`: `安` < `干` in codepoint order), not `[A, B]` as match-index ranking
would require. -/
theorem C3_code_eval :
    searchEntries
        [⟨1, "干", "", "", "", "カン・ガン", "", ""⟩,
         ⟨2, "安", "", "", "", "アン・カン", "", ""⟩] "かん" [] =
      ⟨[], [⟨2, "安", "", "", "", "アン・カン", "", ""⟩,
            ⟨1, "干", "", "", "", "カン・ガン", "", ""⟩], []⟩ := by decide

/-- C6 (behavior of the code at the failing input): entry D has a non-empty
glyph image, an ideograph-free headword `ア`, and an on-reading `アン` with a
segment-prefix match for the variant `ア` of query `ア`; the reclassification
rule would move D to the on-reading group, but the code keeps D in the
headword group (fields are processed `keyword → jion → jikun` with a seen-id
set and no reclassification step exists). -/
theorem C6_code_eval :
    (⟨1, "ア", "", "", "/gaiji/a.png", "アン", "", ""⟩ : EntryRow).gaiji_img_src ≠ "" ∧
    (∀ c ∈ (⟨1, "ア", "", "", "/gaiji/a.png", "アン", "", ""⟩ : EntryRow).keyword.data,
      ¬(0x4E00 ≤ c.toNat ∧ c.toNat ≤ 0x9FFF)) ∧
    "ア" ∈ buildQueryVariants "ア" ∧
    ("ア" : String).data <+: ("アン" : String).data ∧
    searchEntries [⟨1, "ア", "", "", "/gaiji/a.png", "アン", "", ""⟩] "ア" [] =
      ⟨[⟨1, "ア", "", "", "/gaiji/a.png", "アン", "", ""⟩], [], []⟩ := by decide

/-- C7 (behavior of the code at the failing input): the trimmed query `由莉`
consists of two CJK ideographs, and the entry with headword `由` would match
the per-character token `由`; but `buildQueryVariants` performs no
multi-ideograph expansion (kana conversion is the identity on ideographs, so
the only variant is the full query) and the search finds nothing. -/
theorem C7_code_eval :
    (∀ c ∈ ("由莉" : String).data, 0x4E00 ≤ c.toNat ∧ c.toNat ≤ 0x9FFF) ∧
    ("由莉" : String).data.length = 2 ∧
    rowMatches ["由"] .keyword ⟨1, "由", "", "", "", "", "", ""⟩ = true ∧
    buildQueryVariants "由莉" = ["由莉"] ∧
    searchEntries [⟨1, "由", "", "", "", "", "", ""⟩] "由莉" [] = ⟨[], [], []⟩ := by
  decide

/-- C8 is false as stated for mixed-script queries: for the query `あア` and
its katakana transliteration `アア`, the grouped results over a one-entry store
differ (the original query is itself a variant and matches the headword
`あア`; the transliterated query only produces the variants `アア` and `ああ`,
which do not). -/
theorem C8_counterexample :
    toKatakana "あア" = "アア" ∧
    searchEntries [⟨1, "あア", "", "", "", "", "", ""⟩] "あア" [] ≠
      searchEntries [⟨1, "あア", "", "", "", "", "", ""⟩] (toKatakana "あア") [] := by
  decide

/-- C9 is false as stated: the empty string is accepted as a filter label, and
`substr(jikei,1,2)` of an empty `jikei` is the empty string, so an entry with
empty `formClass` does appear in a search whose filter list is the non-empty
list `[""]`. -/
theorem C9_counterexample :
    (⟨1, "あ", "", "", "", "", "", ""⟩ : EntryRow).jikei = "" ∧
    ([""] : List String) ≠ [] ∧
    (⟨1, "あ", "", "", "", "", "", ""⟩ : EntryRow) ∈
      (searchEntries [⟨1, "あ", "", "", "", "", "", ""⟩] "あ" [""]).keyword := by
  decide

/-- C9 amended: an entry whose `formClass` (`jikei`) is empty appears in no
result group of a search whose filter list is non-empty, provided the empty
string is not among the filter labels. -/
theorem C9_amended_empty_formclass_excluded (db : List EntryRow) (query : String)
    (filters : List String) (r : EntryRow) (hne : filters ≠ []) (hno : "" ∉ filters)
    (hr : r.jikei = "") :
    r ∉ (searchEntries db query filters).keyword ∧
    r ∉ (searchEntries db query filters).jion ∧
    r ∉ (searchEntries db query filters).jikun := by
  have key : ∀ (f : SearchField) (variants : List String),
      r ∉ runQuery db f variants filters 200 := by
    intro f variants hmem
    have hp := runQuery_passesFilter hmem
    simp only [passesFilter, Bool.or_eq_true, decide_eq_true_eq] at hp
    rcases hp with hp | hp
    · exact hne (List.isEmpty_iff.mp hp)
    · have hkey : jikeiKey r = "" := by
        simp [jikeiKey, hr]
      exact hno (hkey ▸ hp)
  simp only [searchEntries]
  split
  · simp
  · dsimp only
    refine ⟨?_, ?_, ?_⟩ <;>
    · intro hmem
      exact key _ _ (List.Sublist.mem hmem (dedupPass_sublist _ _))

/-- Witness for `C9_amended_empty_formclass_excluded` at a concrete input. -/
theorem C9_amended_witness :
    (["国字"] : List String) ≠ [] ∧ "" ∉ (["国字"] : List String) ∧
    (⟨1, "あ", "", "", "", "", "", ""⟩ : EntryRow).jikei = "" ∧
    ((⟨1, "あ", "", "", "", "", "", ""⟩ : EntryRow) ∉
        (searchEntries [⟨1, "あ", "", "", "", "", "", ""⟩] "あ" ["国字"]).keyword ∧
      (⟨1, "あ", "", "", "", "", "", ""⟩ : EntryRow) ∉
        (searchEntries [⟨1, "あ", "", "", "", "", "", ""⟩] "あ" ["国字"]).jion ∧
      (⟨1, "あ", "", "", "", "", "", ""⟩ : EntryRow) ∉
        (searchEntries [⟨1, "あ", "", "", "", "", "", ""⟩] "あ" ["国字"]).jikun) :=
  ⟨by decide, by decide, rfl,
    C9_amended_empty_formclass_excluded [⟨1, "あ", "", "", "", "", "", ""⟩] "あ" ["国字"]
      ⟨1, "あ", "", "", "", "", "", ""⟩ (by decide) (by decide) rfl⟩

/-! ### Script conversion facts for the katakana-free script symmetry -/

theorem toNat_ofNat_of_lt {n : Nat} (h : n < 55296) : (Char.ofNat n).toNat = n := by
  unfold Char.ofNat
  rw [dif_pos (Or.inl h)]
  rfl

theorem kataChar_toNat_of_hira {c : Char} (h : 0x3041 ≤ c.toNat ∧ c.toNat ≤ 0x3096) :
    (kataChar c).toNat = c.toNat + 0x60 := by
  simp only [kataChar, if_pos h]
  exact toNat_ofNat_of_lt (by omega)

theorem kataChar_eq_self {c : Char} (h : ¬(0x3041 ≤ c.toNat ∧ c.toNat ≤ 0x3096)) :
    kataChar c = c := by
  simp only [kataChar, if_neg h]

theorem hiraChar_eq_self {c : Char} (h : ¬(0x30A1 ≤ c.toNat ∧ c.toNat ≤ 0x30F6)) :
    hiraChar c = c := by
  simp only [hiraChar, if_neg h]

theorem isJsWhitespace_eq_false_of_range {c : Char} (h1 : 0x3041 ≤ c.toNat)
    (h2 : c.toNat ≤ 0x30F6) : isJsWhitespace c = false := by
  simp only [isJsWhitespace, decide_eq_false_iff_not]
  omega

theorem isJsWhitespace_kataChar (c : Char) :
    isJsWhitespace (kataChar c) = isJsWhitespace c := by
  by_cases h : 0x3041 ≤ c.toNat ∧ c.toNat ≤ 0x3096
  · have hk := kataChar_toNat_of_hira h
    have e1 : isJsWhitespace (kataChar c) = false :=
      isJsWhitespace_eq_false_of_range (by omega) (by omega)
    have e2 : isJsWhitespace c = false :=
      isJsWhitespace_eq_false_of_range h.1 (by omega)
    rw [e1, e2]
  · rw [kataChar_eq_self h]

theorem hiraChar_kataChar (c : Char) : hiraChar (kataChar c) = hiraChar c := by
  by_cases h : 0x3041 ≤ c.toNat ∧ c.toNat ≤ 0x3096
  · have hk := kataChar_toNat_of_hira h
    have e1 : hiraChar (kataChar c) = Char.ofNat ((kataChar c).toNat - 0x60) := by
      simp only [hiraChar, if_pos (show 0x30A1 ≤ (kataChar c).toNat ∧ (kataChar c).toNat ≤ 0x30F6
        by omega)]
    have e2 : hiraChar c = c := hiraChar_eq_self (by omega)
    rw [e1, e2, hk]
    have e3 : c.toNat + 0x60 - 0x60 = c.toNat := by omega
    rw [e3, Char.ofNat_toNat]
  · rw [kataChar_eq_self h]

theorem kataChar_kataChar (c : Char) : kataChar (kataChar c) = kataChar c := by
  by_cases h : 0x3041 ≤ c.toNat ∧ c.toNat ≤ 0x3096
  · have hk := kataChar_toNat_of_hira h
    exact kataChar_eq_self (by omega)
  · rw [kataChar_eq_self h]
    exact kataChar_eq_self h

theorem dropWhile_ws_map_kata (l : List Char) :
    (l.map kataChar).dropWhile isJsWhitespace =
      (l.dropWhile isJsWhitespace).map kataChar := by
  have hcomp : (isJsWhitespace ∘ kataChar) = isJsWhitespace := by
    funext c
    exact isJsWhitespace_kataChar c
  rw [List.dropWhile_map, hcomp]

theorem trimChars_map_kata (l : List Char) :
    trimChars (l.map kataChar) = (trimChars l).map kataChar := by
  simp only [trimChars]
  rw [dropWhile_ws_map_kata, ← List.map_reverse, dropWhile_ws_map_kata, ← List.map_reverse]

theorem jsTrim_toKatakana (q : String) : jsTrim (toKatakana q) = toKatakana (jsTrim q) := by
  apply String.ext
  show trimChars (q.data.map kataChar) = (trimChars q.data).map kataChar
  exact trimChars_map_kata q.data

theorem trimChars_sublist (l : List Char) : (trimChars l).Sublist l := by
  have h1 : (l.dropWhile isJsWhitespace).Sublist l := List.dropWhile_sublist _
  have h2 := (List.dropWhile_sublist (l := (l.dropWhile isJsWhitespace).reverse)
    isJsWhitespace).reverse
  rw [List.reverse_reverse] at h2
  exact h2.trans h1

theorem katakanaFree_jsTrim {q : String} (h : katakanaFree q) : katakanaFree (jsTrim q) := by
  intro c hc
  exact h c (List.Sublist.mem hc (trimChars_sublist q.data))

theorem map_hiraChar_eq_self {l : List Char}
    (h : ∀ c ∈ l, ¬(0x30A1 ≤ c.toNat ∧ c.toNat ≤ 0x30F6)) : l.map hiraChar = l := by
  induction l with
  | nil => rfl
  | cons a as ih =>
    simp only [List.map_cons]
    rw [hiraChar_eq_self (h a (List.mem_cons_self _ _)),
      ih (fun c hc => h c (List.mem_cons_of_mem _ hc))]

theorem toHiragana_eq_self {s : String} (h : katakanaFree s) : toHiragana s = s := by
  apply String.ext
  show s.data.map hiraChar = s.data
  exact map_hiraChar_eq_self h

theorem toHiragana_toKatakana (s : String) : toHiragana (toKatakana s) = toHiragana s := by
  apply String.ext
  show (s.data.map kataChar).map hiraChar = s.data.map hiraChar
  rw [List.map_map]
  have hcomp : (hiraChar ∘ kataChar) = hiraChar := funext hiraChar_kataChar
  rw [hcomp]

theorem toKatakana_toKatakana (s : String) : toKatakana (toKatakana s) = toKatakana s := by
  apply String.ext
  show (s.data.map kataChar).map kataChar = s.data.map kataChar
  rw [List.map_map]
  have hcomp : (kataChar ∘ kataChar) = kataChar := funext kataChar_kataChar
  rw [hcomp]

theorem toKatakana_eq_empty_iff {s : String} : toKatakana s = "" ↔ s = "" := by
  rw [String.ext_iff, String.ext_iff]
  show s.data.map kataChar = ([] : List Char) ↔ s.data = ([] : List Char)
  exact List.map_eq_nil_iff

theorem buildQueryVariants_eq_nil_of {q : String} (h : jsTrim q = "") :
    buildQueryVariants q = [] := by
  simp [buildQueryVariants, h]

theorem mem_buildQueryVariants_of_ne {q v : String} (h : jsTrim q ≠ "") :
    v ∈ buildQueryVariants q ↔
      ((v = jsTrim q ∨ v = toHiragana (jsTrim q) ∨ v = toKatakana (jsTrim q)) ∧
        v.length > 0) := by
  simp only [buildQueryVariants, if_neg h, List.mem_filter, mem_dedupKeepFirst, List.mem_cons,
    List.not_mem_nil, or_false, gt_iff_lt, decide_eq_true_eq]

theorem buildQueryVariants_mem_symm {q : String} (hq : katakanaFree q) (v : String) :
    v ∈ buildQueryVariants q ↔ v ∈ buildQueryVariants (toKatakana q) := by
  by_cases ht : jsTrim q = ""
  · rw [buildQueryVariants_eq_nil_of ht, buildQueryVariants_eq_nil_of
      (by rw [jsTrim_toKatakana, ht]; rfl)]
  · have htr : katakanaFree (jsTrim q) := katakanaFree_jsTrim hq
    have hh : toHiragana (jsTrim q) = jsTrim q := toHiragana_eq_self htr
    have hne2 : jsTrim (toKatakana q) ≠ "" := by
      rw [jsTrim_toKatakana]
      exact fun he => ht (toKatakana_eq_empty_iff.mp he)
    rw [mem_buildQueryVariants_of_ne ht, mem_buildQueryVariants_of_ne hne2,
      jsTrim_toKatakana, toHiragana_toKatakana, toKatakana_toKatakana, hh]
    constructor <;> rintro ⟨h1, h2⟩ <;> exact ⟨by tauto, h2⟩

theorem rowMatches_congr {vs1 vs2 : List String} (h : ∀ v, v ∈ vs1 ↔ v ∈ vs2)
    (f : SearchField) (e : EntryRow) : rowMatches vs1 f e = rowMatches vs2 f e := by
  rw [Bool.eq_iff_iff, rowMatches_iff, rowMatches_iff]
  constructor
  · rintro ⟨v, hv, hc⟩
    exact ⟨v, (h v).mp hv, hc⟩
  · rintro ⟨v, hv, hc⟩
    exact ⟨v, (h v).mpr hv, hc⟩

theorem runQuery_congr {vs1 vs2 : List String} (h : ∀ v, v ∈ vs1 ↔ v ∈ vs2)
    (db : List EntryRow) (f : SearchField) (filters : List String) (limit : Nat) :
    runQuery db f vs1 filters limit = runQuery db f vs2 filters limit := by
  simp only [runQuery]
  have e : db.filter (fun r => rowMatches vs1 f r && passesFilter filters r) =
      db.filter (fun r => rowMatches vs2 f r && passesFilter filters r) :=
    List.filter_congr (fun x _ => by rw [rowMatches_congr h])
  rw [e]

/-- C8 amended: for every store and filter list, and every query containing no
katakana code point U+30A1–U+30F6 (in particular any hiragana query),
searching with the query and with its katakana transliteration yields
identical grouped results. -/
theorem C8_amended_script_symmetry (db : List EntryRow) (filters : List String)
    (q : String) (hq : katakanaFree q) :
    searchEntries db q filters = searchEntries db (toKatakana q) filters := by
  have hmem := buildQueryVariants_mem_symm hq
  by_cases ht : jsTrim q = ""
  · have h1 : buildQueryVariants q = [] := buildQueryVariants_eq_nil_of ht
    have h2 : buildQueryVariants (toKatakana q) = [] :=
      buildQueryVariants_eq_nil_of (by rw [jsTrim_toKatakana, ht]; rfl)
    simp [searchEntries, h1, h2]
  · have hlen : 0 < (jsTrim q).length :=
      List.length_pos.mpr (fun hd => ht (String.ext hd))
    have hmem1 : jsTrim q ∈ buildQueryVariants q :=
      (mem_buildQueryVariants_of_ne ht).mpr ⟨Or.inl rfl, hlen⟩
    have hmem2 : jsTrim q ∈ buildQueryVariants (toKatakana q) := (hmem _).mp hmem1
    have h1 : (buildQueryVariants q).isEmpty = false := by
      cases hB : (buildQueryVariants q).isEmpty
      · rfl
      · rw [List.isEmpty_iff.mp hB] at hmem1
        simp at hmem1
    have h2 : (buildQueryVariants (toKatakana q)).isEmpty = false := by
      cases hB : (buildQueryVariants (toKatakana q)).isEmpty
      · rfl
      · rw [List.isEmpty_iff.mp hB] at hmem2
        simp at hmem2
    simp only [searchEntries, h1, h2, Bool.false_eq_true, if_false]
    rw [runQuery_congr hmem db .keyword filters 200, runQuery_congr hmem db .jion filters 200,
      runQuery_congr hmem db .jikun filters 200]

/-- Witness for `C8_amended_script_symmetry` at a concrete input. -/
theorem C8_amended_witness :
    katakanaFree "かん" ∧
    searchEntries [⟨1, "干", "", "", "", "カン・ガン", "", ""⟩] "かん" [] =
      searchEntries [⟨1, "干", "", "", "", "カン・ガン", "", ""⟩] (toKatakana "かん") [] :=
  ⟨by decide, C8_amended_script_symmetry _ _ _ (by decide)⟩

end Jitsuu
